import Mathlib

set_option autoImplicit false

/-
Verification of the cw721-base storage core (contracts/cw721-base/src/state.rs).

Modelling conventions:
- Addresses and token identifiers are opaque strings.
- The flat storage of the host is an association list from byte keys
  (lists of byte values) to typed values; Item.save / Item.may_load of
  cw-storage-plus become setStore / getStore at the item key.
- Machine integers (u64) are natural numbers; arithmetic that the Rust
  source performs without an overflow check is modelled with an explicit
  wrap modulo 2 ^ 64 (the two's-complement behaviour of an unchecked
  release build; a build with overflow checks panics and aborts the whole
  transition at the same inputs, and in neither build is a structured
  error value returned).
- Fallible operations return Except.
-/

namespace Cw721

/-- Opaque, externally validated account identifier (state.rs uses cosmwasm Addr). -/
abbrev Addr := String

/-- Modelled from the spec: the Expiration type of the cw721 / cw-utils crates
(not under src/): one of AtHeight, AtTime, Never. -/
inductive Expiration where
  | at_height (height : Nat)
  | at_time (time : Nat)
  | never
  deriving DecidableEq

/-- Current block data (cosmwasm BlockInfo, restricted to the fields the
expiration comparison reads). -/
structure BlockInfo where
  height : Nat
  time : Nat
  deriving DecidableEq

/-- Modelled from the spec: Expiration::is_expired of the cw-utils crate (not
under src/): Never is never expired; AtHeight / AtTime are expired when the
current value is greater than or equal to the stored bound. -/
def Expiration.is_expired : Expiration → BlockInfo → Bool
  | .at_height h, b => decide (h ≤ b.height)
  | .at_time t, b => decide (t ≤ b.time)
  | .never, _ => false

/-- state.rs lines 116-122: a per-token approval. -/
structure Approval where
  spender : Addr
  expires : Expiration
  deriving DecidableEq

/-- state.rs lines 124-128: Approval::is_expired delegates to the expiration. -/
def Approval.is_expired (a : Approval) (b : BlockInfo) : Bool :=
  a.expires.is_expired b

/-- state.rs lines 100-114: the token record, parameterised by the opaque
extension payload. -/
structure TokenInfo (MintExt : Type) where
  owner : Addr
  approvals : List Approval
  token_uri : Option String
  extension : MintExt

/-- state.rs lines 147-149: the owner index key of a record is solely its
owner field; the primary key argument is ignored. -/
def token_owner_idx {MintExt : Type} (_pk : List Nat) (d : TokenInfo MintExt) : Addr :=
  d.owner

/-- Byte sequence of a namespace string (ASCII code points). -/
def strBytes (s : String) : List Nat :=
  s.data.map Char.toNat

/-- A stored value, seen through the serialization codec: either a u64
counter value or an opaque serialized blob (token records, approvals,
metadata, ...). -/
inductive Val where
  | u64 (n : Nat)
  | blob (bytes : List Nat)
  deriving DecidableEq

/-- The flat key-value storage of the host. -/
abbrev Store := List (List Nat × Val)

/-- First-match association-list lookup. -/
def alookup {κ α : Type} [DecidableEq κ] : List (κ × α) → κ → Option α
  | [], _ => none
  | (k, v) :: l, i => if k = i then some v else alookup l i

/-- Remove every binding of a key from an association list. -/
def eraseKey {κ α : Type} [DecidableEq κ] : List (κ × α) → κ → List (κ × α)
  | [], _ => []
  | (k, v) :: l, i => if k = i then eraseKey l i else (k, v) :: eraseKey l i

/-- Remove every occurrence of an element from a list. -/
def eraseAll {α : Type} [DecidableEq α] : List α → α → List α
  | [], _ => []
  | a :: l, x => if a = x then eraseAll l x else a :: eraseAll l x

/-- Storage get primitive. -/
def getStore (s : Store) (k : List Nat) : Option Val :=
  alookup s k

/-- Storage set primitive: overwrite the binding of one key. -/
def setStore (s : Store) (k : List Nat) (v : Val) : Store :=
  (k, v) :: eraseKey s k

/-- Error kinds the modelled operations surface. -/
inductive StdErr where
  | notFound
  | alreadyExists
  | dataCorruption
  deriving DecidableEq

/-- The u64 wrap modulus. -/
def U64MOD : Nat := 2 ^ 64

/-- Raw storage key of an Item with the given namespace (cw-storage-plus
stores an Item directly under its namespace bytes). -/
def itemKey (ns : String) : List Nat :=
  strBytes ns

/-- Storage key of a Map entry: length-prefixed namespace (two big-endian
length bytes, here the namespaces are shorter than 256) followed by the
encoded map key suffix. -/
def mapKey (ns : String) (suffix : List Nat) : List Nat :=
  0 :: (strBytes ns).length :: (strBytes ns ++ suffix)

/-- state.rs line 20 with the default construction: the token counter Item
lives under the namespace "num_tokens". -/
def numTokensKey : List Nat :=
  itemKey "num_tokens"

/-- state.rs lines 83-85: token_count returns the stored counter, treating
an absent key as 0 (may_load + unwrap_or_default). A stored value of the
wrong shape is a deserialization failure. -/
def token_count (storage : Store) : Except StdErr Nat :=
  match getStore storage numTokensKey with
  | none => .ok 0
  | some (.u64 n) => .ok n
  | some (.blob _) => .error .dataCorruption

/-- Unchecked u64 increment of the Rust expression count + 1, modelled with
an explicit wrap modulo 2 ^ 64. -/
def wrapInc (c : Nat) : Nat :=
  (c + 1) % U64MOD

/-- Unchecked u64 decrement of the Rust expression count - 1, modelled with
an explicit wrap modulo 2 ^ 64: at 0 it produces 2 ^ 64 - 1. -/
def wrapDec (c : Nat) : Nat :=
  (c + (U64MOD - 1)) % U64MOD

/-- state.rs lines 87-91: increment_tokens reads the count, adds 1 (unchecked
u64 arithmetic), saves and returns the new value. -/
def increment_tokens (storage : Store) : Except StdErr (Nat × Store) :=
  match token_count storage with
  | .error e => .error e
  | .ok c =>
    let val := wrapInc c
    .ok (val, setStore storage numTokensKey (.u64 val))

/-- state.rs lines 93-97: decrement_tokens reads the count and subtracts 1
with unchecked u64 arithmetic. There is no underflow guard in the source:
at count 0 the subtraction wraps to 2 ^ 64 - 1 (unchecked build) or panics
and aborts (overflow-checked build); no structured Underflow error is
produced on either reading. The wrap reading is the one modelled. -/
def decrement_tokens (storage : Store) : Except StdErr (Nat × Store) :=
  match token_count storage with
  | .error e => .error e
  | .ok c =>
    let val := wrapDec c
    .ok (val, setStore storage numTokensKey (.u64 val))

/-- Returned value of a counter operation, if it succeeded. -/
def excVal : Except StdErr (Nat × Store) → Option Nat
  | .ok p => some p.1
  | .error _ => none

/-- Stored value at a key after a counter operation, if it succeeded. -/
def excStoreAt (e : Except StdErr (Nat × Store)) (k : List Nat) : Option Val :=
  match e with
  | .ok p => getStore p.2 k
  | .error _ => none

/-- A storage state holding the maximal u64 counter value. -/
def maxCountStore : Store :=
  [(numTokensKey, Val.u64 (U64MOD - 1))]

/-- Abstract state of the indexed token registry of state.rs line 23: the
primary token store (token identifier to record), the derived owner index
(set of owner and identifier pairs, one per live record), and the token
counter cell. -/
structure Registry (MintExt : Type) where
  tokens : List (String × TokenInfo MintExt)
  idx : List (Addr × String)
  count : Nat

/-- The registry before any operation: empty primary store, empty owner
index, counter never written (count() treats that as 0). -/
def emptyRegistry (MintExt : Type) : Registry MintExt :=
  { tokens := [], idx := [], count := 0 }

/-- Modelled from the spec: IndexedMap insert as used by mint (IndexedMap
internals live in the cw-storage-plus crate, not under src/): fail with
AlreadyExists if the identifier is present, otherwise write the record and
simultaneously write the owner index entry derived by token_owner_idx
(state.rs lines 67-68 and 147-149). -/
def insertTok {E : Type} (id : String) (record : TokenInfo E) (s : Registry E) :
    Except StdErr (Registry E) :=
  match alookup s.tokens id with
  | some _ => .error .alreadyExists
  | none =>
    .ok { s with
          tokens := (id, record) :: s.tokens,
          idx := (token_owner_idx (strBytes id) record, id) :: s.idx }

/-- Replace the record bound to an identifier, keeping every other binding. -/
def setTok {E : Type} : List (String × TokenInfo E) → String → TokenInfo E →
    List (String × TokenInfo E)
  | [], _, _ => []
  | (k, w) :: l, id, v =>
    if k = id then (k, v) :: setTok l id v else (k, w) :: setTok l id v

/-- Modelled from the spec: IndexedMap save over an existing key as used by
transfer (cw-storage-plus crate, not under src/): load the current record
(NotFound if absent), remove the owner index entry derived from the old
record, write the record with the new owner, write the owner index entry
derived from the new record, all in one logical step. -/
def updateOwnerTok {E : Type} (id : String) (newOwner : Addr) (s : Registry E) :
    Except StdErr (Registry E) :=
  match alookup s.tokens id with
  | none => .error .notFound
  | some old =>
    let newRecord := { old with owner := newOwner }
    .ok { s with
          tokens := setTok s.tokens id newRecord,
          idx := (token_owner_idx (strBytes id) newRecord, id) ::
                 eraseAll s.idx (token_owner_idx (strBytes id) old, id) }

/-- Modelled from the spec: IndexedMap remove as used by burn
(cw-storage-plus crate, not under src/): load the current record (NotFound
if absent), delete the record and delete the owner index entry derived
from it. -/
def removeTok {E : Type} (id : String) (s : Registry E) : Except StdErr (Registry E) :=
  match alookup s.tokens id with
  | none => .error .notFound
  | some old =>
    .ok { s with
          tokens := eraseKey s.tokens id,
          idx := eraseAll s.idx (token_owner_idx (strBytes id) old, id) }

/-- One primary-store operation of claim C2. -/
inductive RegOp (E : Type) where
  | insert (id : String) (record : TokenInfo E)
  | updateOwner (id : String) (newOwner : Addr)
  | remove (id : String)

/-- Execute one operation, surfacing its error. -/
def execRegOp {E : Type} : RegOp E → Registry E → Except StdErr (Registry E)
  | .insert id r, s => insertTok id r s
  | .updateOwner id o, s => updateOwnerTok id o s
  | .remove id, s => removeTok id s

/-- Apply one operation; a failed operation leaves no partial update (the
host rolls the transition back), so the state is unchanged. -/
def applyRegOp {E : Type} (op : RegOp E) (s : Registry E) : Registry E :=
  match execRegOp op s with
  | .ok s2 => s2
  | .error _ => s

/-- Run a sequence of primary-store operations. -/
def runRegOps {E : Type} : List (RegOp E) → Registry E → Registry E
  | [], s => s
  | op :: ops, s => runRegOps ops (applyRegOp op s)

/-- The index-consistency property of claim C2: the set of (owner, id)
owner-index entries is exactly the set of pairs (record.owner, id) over the
identifiers id bound in the primary token store. -/
def IdxConsistent {E : Type} (s : Registry E) : Prop :=
  ∀ o i, (o, i) ∈ s.idx ↔ ∃ r, alookup s.tokens i = some r ∧ r.owner = o

/-- Internal well-formedness used to establish claim C3: the primary-store
keys are pairwise distinct and the counter holds the live-entry count
wrapped to u64. -/
def CountWF {E : Type} (s : Registry E) : Prop :=
  (s.tokens.map Prod.fst).Nodup ∧ s.count = s.tokens.length % U64MOD

/-- One mint or burn step of claim C3. -/
inductive MintBurnOp (E : Type) where
  | mint (id : String) (record : TokenInfo E)
  | burn (id : String)

/-- Modelled from the spec: the execute layer (not under src/) pairs every
successful token-store insert with exactly one increment_tokens call and
every successful remove with exactly one decrement_tokens call, inside one
state transition; a failed step persists nothing. The counter arithmetic
is the unchecked u64 arithmetic of state.rs lines 87-97 (wrapInc and
wrapDec). -/
def mintStep {E : Type} (id : String) (r : TokenInfo E) (s : Registry E) : Registry E :=
  match insertTok id r s with
  | .ok s2 => { s2 with count := wrapInc s2.count }
  | .error _ => s

/-- Modelled from the spec: a burn step pairs one remove with exactly one
decrement_tokens call; a failed remove persists nothing. -/
def burnStep {E : Type} (id : String) (s : Registry E) : Registry E :=
  match removeTok id s with
  | .ok s2 => { s2 with count := wrapDec s2.count }
  | .error _ => s

/-- Dispatch of one mint or burn step. -/
def applyMintBurn {E : Type} : MintBurnOp E → Registry E → Registry E
  | .mint id r, s => mintStep id r s
  | .burn id, s => burnStep id s

/-- Run a sequence of mint and burn steps. -/
def runMintBurn {E : Type} : List (MintBurnOp E) → Registry E → Registry E
  | [], s => s
  | op :: ops, s => runMintBurn ops (applyMintBurn op s)

/-- A concrete token record with a trivial extension payload. -/
def unitRecord : TokenInfo Unit :=
  { owner := "alice", approvals := [], token_uri := none, extension := () }

/-- Distinct token identifiers, one per natural number. -/
def mkId (k : Nat) : String :=
  String.mk (List.replicate k 'a')

/-- A mint-only sequence long enough to wrap the unchecked u64 counter:
2 ^ 64 mints of pairwise distinct identifiers. -/
def hugeMintOps : List (MintBurnOp Unit) :=
  (List.range U64MOD).map (fun k => MintBurnOp.mint (mkId k) unitRecord)

/-- A short concrete mint and burn sequence. -/
def smallMintOps : List (MintBurnOp Unit) :=
  [MintBurnOp.mint "t1" unitRecord, MintBurnOp.burn "t1", MintBurnOp.mint "t2" unitRecord]

/-- state.rs lines 67-68 and 130-135: the owner MultiIndex is built from the
primary namespace (tokens_key) and the index namespace (tokens_owner_key). -/
structure TokenIndexesKeys where
  owner_pk_namespace : String
  owner_idx_namespace : String

/-- Storage namespaces of the components of Cw721Contract, state.rs lines
18-23: contract_info, minter and token_count are Items, operators is a Map,
tokens is an IndexedMap whose owner index is stored under its own Map
namespace. -/
structure Cw721Keys where
  contract_key : String
  minter_key : String
  token_count_key : String
  operator_key : String
  tokens_key : String
  indexes : TokenIndexesKeys

/-- state.rs lines 59-81: new wires every component to its namespace and
builds the owner MultiIndex from the tokens and tokens-owner namespaces. -/
def Cw721Keys.new (contract_key minter_key token_count_key operator_key tokens_key
    tokens_owner_key : String) : Cw721Keys :=
  { contract_key := contract_key, minter_key := minter_key,
    token_count_key := token_count_key, operator_key := operator_key,
    tokens_key := tokens_key,
    indexes := { owner_pk_namespace := tokens_key,
                 owner_idx_namespace := tokens_owner_key } }

/-- state.rs lines 39-48: Default::default fixes the six namespaces. -/
def cw721Default : Cw721Keys :=
  Cw721Keys.new "nft_info" "minter" "num_tokens" "operators" "tokens" "tokens__owner"

/-- The six storage components of the contract. -/
inductive StorageComponent where
  | contractInfo
  | minter
  | tokenCount
  | operators
  | tokens
  | ownerIndex
  deriving DecidableEq

/-- The flat storage keys a component may write: an Item writes exactly its
raw namespace bytes; a Map (and the owner MultiIndex, stored as a Map under
its index namespace) writes length-prefixed composite keys for arbitrary
suffixes. -/
def isKeyOf (c : Cw721Keys) : StorageComponent → List Nat → Prop
  | .contractInfo, k => k = itemKey c.contract_key
  | .minter, k => k = itemKey c.minter_key
  | .tokenCount, k => k = itemKey c.token_count_key
  | .operators, k => ∃ sfx, k = mapKey c.operator_key sfx
  | .tokens, k => ∃ sfx, k = mapKey c.tokens_key sfx
  | .ownerIndex, k => ∃ sfx, k = mapKey c.indexes.owner_idx_namespace sfx

end Cw721

namespace Cw721

/- Theorems. -/

@[simp] theorem alookup_nil {κ α : Type} [DecidableEq κ] (k : κ) :
    alookup ([] : List (κ × α)) k = none := rfl

theorem alookup_cons {κ α : Type} [DecidableEq κ] (a : κ) (b : α) (l : List (κ × α)) (k : κ) :
    alookup ((a, b) :: l) k = if a = k then some b else alookup l k := rfl

theorem alookup_eraseKey_ne {κ α : Type} [DecidableEq κ] (l : List (κ × α)) (k j : κ)
    (h : j ≠ k) : alookup (eraseKey l k) j = alookup l j := by
  induction l with
  | nil => rfl
  | cons p t ih =>
    obtain ⟨a, b⟩ := p
    by_cases hak : a = k
    · rw [eraseKey, if_pos hak, ih, alookup_cons, if_neg]
      intro haj
      exact h (haj ▸ hak)
    · rw [eraseKey, if_neg hak, alookup_cons, alookup_cons]
      by_cases haj : a = j
      · rw [if_pos haj, if_pos haj]
      · rw [if_neg haj, if_neg haj, ih]

theorem alookup_eraseKey_self {κ α : Type} [DecidableEq κ] (l : List (κ × α)) (k : κ) :
    alookup (eraseKey l k) k = none := by
  induction l with
  | nil => rfl
  | cons p t ih =>
    obtain ⟨a, b⟩ := p
    by_cases hak : a = k
    · rw [eraseKey, if_pos hak, ih]
    · rw [eraseKey, if_neg hak, alookup_cons, if_neg hak, ih]

theorem getStore_setStore_self (s : Store) (k : List Nat) (v : Val) :
    getStore (setStore s k v) k = some v := by
  simp [getStore, setStore, alookup]

theorem getStore_setStore_ne (s : Store) (k j : List Nat) (v : Val) (h : j ≠ k) :
    getStore (setStore s k v) j = getStore s j := by
  unfold getStore setStore
  rw [alookup_cons, if_neg (fun hkj => h hkj.symm)]
  exact alookup_eraseKey_ne s k j h

/-- Claim C1 (code_bug record): evaluated at the failing input, the empty
storage where count() is 0, the source's decrement does not fail with an
Underflow error and does not leave the counter at 0: the unchecked u64
subtraction wraps, the call returns Ok with value 2 ^ 64 - 1, and the value
2 ^ 64 - 1 is persisted under the token counter key. -/
theorem decrement_tokens_on_empty_wraps :
    token_count [] = .ok 0 ∧
    excVal (decrement_tokens []) = some (U64MOD - 1) ∧
    excStoreAt (decrement_tokens []) numTokensKey = some (.u64 (U64MOD - 1)) ∧
    U64MOD - 1 ≠ 0 := by
  refine ⟨rfl, rfl, ?_, by decide⟩
  rfl

/-- Claim C4: the owner-index key derived from a token record is solely the
record's owner field: two records agreeing on owner produce the same index
key, whatever their approvals, token_uri, extension (even of different
types) and whatever the primary key argument. -/
theorem token_owner_idx_only_owner {E1 E2 : Type} (pk1 pk2 : List Nat)
    (d1 : TokenInfo E1) (d2 : TokenInfo E2) (h : d1.owner = d2.owner) :
    token_owner_idx pk1 d1 = token_owner_idx pk2 d2 :=
  h

/-- Witness for claim C4 at concrete records differing in every field but
the owner, and at different primary keys. -/
theorem token_owner_idx_only_owner_witness :
    token_owner_idx [0]
        ({ owner := "alice", approvals := [], token_uri := some "u", extension := 3 } :
          TokenInfo Nat) =
      token_owner_idx [1, 2]
        ({ owner := "alice", approvals := [{ spender := "bob", expires := .never }],
           token_uri := none, extension := () } : TokenInfo Unit) :=
  token_owner_idx_only_owner [0] [1, 2] _ _ rfl

/-- Claim C5: an approval expiring AtHeight h is expired exactly when the
current block height is at least h (so not expired strictly below h), an
approval with Never never expires, and in particular AtHeight 100 is not
expired at block 99 and is expired at blocks 100 and 101. -/
theorem approval_expiration_boundary :
    (∀ (sp : Addr) (h : Nat) (b : BlockInfo),
        Approval.is_expired { spender := sp, expires := .at_height h } b =
          decide (h ≤ b.height)) ∧
    (∀ (sp : Addr) (b : BlockInfo),
        Approval.is_expired { spender := sp, expires := .never } b = false) ∧
    Approval.is_expired { spender := "s", expires := .at_height 100 }
        { height := 99, time := 0 } = false ∧
    Approval.is_expired { spender := "s", expires := .at_height 100 }
        { height := 100, time := 0 } = true ∧
    Approval.is_expired { spender := "s", expires := .at_height 100 }
        { height := 101, time := 0 } = true :=
  ⟨fun _ _ _ => rfl, fun _ _ => rfl, by decide, by decide, by decide⟩

/-- Claim C6: on any storage state where the token counter key was never
written, token_count succeeds and returns 0. -/
theorem token_count_absent_zero (s : Store) (h : getStore s numTokensKey = none) :
    token_count s = .ok 0 := by
  unfold token_count
  rw [h]

/-- Witness for claim C6 at the empty storage. -/
theorem token_count_absent_zero_witness : token_count [] = .ok 0 :=
  token_count_absent_zero [] rfl

/-- Claim C7 (amended): on every storage state whose current count c is
below 2 ^ 64 - 1, increment_tokens persists c + 1 under the token counter
key and returns c + 1. (At c = 2 ^ 64 - 1 the unchecked u64 addition wraps
instead.) -/
theorem increment_tokens_spec_bounded (s : Store) (c : Nat) (h : token_count s = .ok c)
    (hc : c < U64MOD - 1) :
    increment_tokens s = .ok (c + 1, setStore s numTokensKey (.u64 (c + 1))) ∧
    getStore (setStore s numTokensKey (.u64 (c + 1))) numTokensKey = some (.u64 (c + 1)) := by
  have hM : (0 : Nat) < U64MOD := by decide
  have hlt : c + 1 < U64MOD := by omega
  have hval : wrapInc c = c + 1 := by
    unfold wrapInc
    exact Nat.mod_eq_of_lt hlt
  constructor
  · unfold increment_tokens
    rw [h]
    simp [hval]
  · exact getStore_setStore_self _ _ _

/-- Witness for claim C7 at the empty storage, where the current count is 0. -/
theorem increment_tokens_spec_bounded_witness :
    increment_tokens [] = .ok (1, setStore [] numTokensKey (.u64 1)) ∧
    getStore (setStore [] numTokensKey (.u64 1)) numTokensKey = some (.u64 1) :=
  increment_tokens_spec_bounded [] 0 rfl (by decide)

/-- Claim C7 counterexample: at the storage state whose stored count is
2 ^ 64 - 1, increment_tokens returns 0 and persists 0, not c + 1 = 2 ^ 64:
the unchecked u64 addition wraps. -/
theorem increment_tokens_wraps_at_max :
    excVal (increment_tokens maxCountStore) = some 0 ∧
    excStoreAt (increment_tokens maxCountStore) numTokensKey = some (.u64 0) ∧
    (U64MOD - 1) + 1 ≠ 0 := by
  refine ⟨rfl, rfl, by decide⟩

/-- Claim C9: increment_tokens and decrement_tokens write only the token
counter key: on success, the resulting storage agrees with the initial one
on every other key, so every token record, owner-index entry, operator
approval, the minter and the contract metadata (all stored under other
keys, see the namespace-disjointness theorem) are unchanged. -/
theorem counter_ops_frame :
    (∀ (s : Store) (v : Nat) (s2 : Store) (k : List Nat),
        increment_tokens s = .ok (v, s2) → k ≠ numTokensKey →
          getStore s2 k = getStore s k) ∧
    (∀ (s : Store) (v : Nat) (s2 : Store) (k : List Nat),
        decrement_tokens s = .ok (v, s2) → k ≠ numTokensKey →
          getStore s2 k = getStore s k) := by
  constructor
  · intro s v s2 k h hk
    unfold increment_tokens at h
    cases htc : token_count s with
    | error e => rw [htc] at h; cases h
    | ok c =>
      rw [htc] at h
      simp only [Except.ok.injEq, Prod.mk.injEq] at h
      obtain ⟨hv, hs⟩ := h
      subst hs
      exact getStore_setStore_ne s numTokensKey k _ hk
  · intro s v s2 k h hk
    unfold decrement_tokens at h
    cases htc : token_count s with
    | error e => rw [htc] at h; cases h
    | ok c =>
      rw [htc] at h
      simp only [Except.ok.injEq, Prod.mk.injEq] at h
      obtain ⟨hv, hs⟩ := h
      subst hs
      exact getStore_setStore_ne s numTokensKey k _ hk

/-- Witness for claim C9: incrementing on the empty storage leaves an
unrelated key unchanged. -/
theorem counter_ops_frame_witness :
    getStore (setStore [] numTokensKey (.u64 1)) [0] = getStore [] [0] :=
  counter_ops_frame.1 [] 1 (setStore [] numTokensKey (.u64 1)) [0] rfl (by decide)

/-- Claim C10: from any storage state whose current count c is below
2 ^ 64 - 1, increment_tokens returns c + 1, the following decrement_tokens
returns c, and the stored count is back to c. -/
theorem increment_then_decrement (s : Store) (c : Nat) (h : token_count s = .ok c)
    (hc : c < U64MOD - 1) :
    ∃ s1 s2, increment_tokens s = .ok (c + 1, s1) ∧ decrement_tokens s1 = .ok (c, s2) ∧
      token_count s2 = .ok c ∧ getStore s2 numTokensKey = some (.u64 c) := by
  have hM : (0 : Nat) < U64MOD := by decide
  have h1lt : c + 1 < U64MOD := by omega
  have hval1 : wrapInc c = c + 1 := by
    unfold wrapInc
    exact Nat.mod_eq_of_lt h1lt
  refine ⟨setStore s numTokensKey (.u64 (c + 1)),
          setStore (setStore s numTokensKey (.u64 (c + 1))) numTokensKey (.u64 c),
          ?_, ?_, ?_, ?_⟩
  · unfold increment_tokens
    rw [h]
    simp [hval1]
  · have htc1 : token_count (setStore s numTokensKey (.u64 (c + 1))) = .ok (c + 1) := by
      unfold token_count
      rw [getStore_setStore_self]
    have hval2 : wrapDec (c + 1) = c := by
      unfold wrapDec
      have he : c + 1 + (U64MOD - 1) = c + U64MOD := by omega
      rw [he, Nat.add_mod_right]
      exact Nat.mod_eq_of_lt (by omega)
    unfold decrement_tokens
    rw [htc1]
    simp [hval2]
  · unfold token_count
    rw [getStore_setStore_self]
  · exact getStore_setStore_self _ _ _

/-- Witness for claim C10 at the empty storage, where the current count is 0. -/
theorem increment_then_decrement_witness :
    ∃ s1 s2, increment_tokens [] = .ok (1, s1) ∧ decrement_tokens s1 = .ok (0, s2) ∧
      token_count s2 = .ok 0 ∧ getStore s2 numTokensKey = some (.u64 0) :=
  increment_then_decrement [] 0 rfl (by decide)

theorem mem_eraseAll {α : Type} [DecidableEq α] (l : List α) (x y : α) :
    y ∈ eraseAll l x ↔ y ∈ l ∧ y ≠ x := by
  induction l with
  | nil => simp [eraseAll]
  | cons a t ih =>
    by_cases hax : a = x
    · subst hax
      rw [eraseAll, if_pos rfl, ih]
      constructor
      · rintro ⟨hy, hne⟩
        exact ⟨List.mem_cons_of_mem _ hy, hne⟩
      · rintro ⟨hy, hne⟩
        rcases List.mem_cons.mp hy with h1 | h1
        · exact absurd h1 hne
        · exact ⟨h1, hne⟩
    · rw [eraseAll, if_neg hax]
      constructor
      · intro hy
        rcases List.mem_cons.mp hy with h1 | h1
        · subst h1
          exact ⟨List.mem_cons_self _ _, hax⟩
        · obtain ⟨h2, h3⟩ := ih.mp h1
          exact ⟨List.mem_cons_of_mem _ h2, h3⟩
      · rintro ⟨hy, hne⟩
        rcases List.mem_cons.mp hy with h1 | h1
        · subst h1
          exact List.mem_cons_self _ _
        · exact List.mem_cons_of_mem _ (ih.mpr ⟨h1, hne⟩)

theorem alookup_setTok_self {E : Type} (l : List (String × TokenInfo E)) (id : String)
    (v w : TokenInfo E) (h : alookup l id = some w) :
    alookup (setTok l id v) id = some v := by
  induction l with
  | nil => cases h
  | cons p t ih =>
    obtain ⟨a, b⟩ := p
    by_cases hai : a = id
    · rw [setTok, if_pos hai, alookup_cons, if_pos hai]
    · rw [setTok, if_neg hai, alookup_cons, if_neg hai]
      rw [alookup_cons, if_neg hai] at h
      exact ih h

theorem alookup_setTok_ne {E : Type} (l : List (String × TokenInfo E)) (id j : String)
    (v : TokenInfo E) (h : j ≠ id) :
    alookup (setTok l id v) j = alookup l j := by
  induction l with
  | nil => rfl
  | cons p t ih =>
    obtain ⟨a, b⟩ := p
    by_cases hai : a = id
    · have haj : ¬a = j := fun he => h ((he.symm).trans hai)
      rw [setTok, if_pos hai, alookup_cons, alookup_cons, if_neg haj, if_neg haj, ih]
    · rw [setTok, if_neg hai, alookup_cons, alookup_cons]
      by_cases haj : a = j
      · rw [if_pos haj, if_pos haj]
      · rw [if_neg haj, if_neg haj, ih]

theorem idxConsistent_insertTok {E : Type} (id : String) (r : TokenInfo E)
    (s s2 : Registry E) (h : insertTok id r s = .ok s2) (hs : IdxConsistent s) :
    IdxConsistent s2 := by
  unfold insertTok at h
  cases hl : alookup s.tokens id with
  | some w => rw [hl] at h; cases h
  | none =>
    rw [hl] at h
    simp only [Except.ok.injEq] at h
    subst h
    intro o i
    show (o, i) ∈ (token_owner_idx (strBytes id) r, id) :: s.idx ↔
      ∃ rr, alookup ((id, r) :: s.tokens) i = some rr ∧ rr.owner = o
    rw [alookup_cons]
    simp only [token_owner_idx]
    by_cases hii : id = i
    · subst hii
      rw [if_pos rfl]
      constructor
      · intro hm
        rcases List.mem_cons.mp hm with he | hm2
        · injection he with h1 h2
          exact ⟨r, rfl, h1.symm⟩
        · obtain ⟨rr, hrr, hro⟩ := (hs o id).mp hm2
          rw [hl] at hrr
          cases hrr
      · rintro ⟨rr, hrr, hro⟩
        injection hrr with hr
        subst hr
        rw [← hro]
        exact List.mem_cons_self _ _
    · rw [if_neg hii]
      constructor
      · intro hm
        rcases List.mem_cons.mp hm with he | hm2
        · injection he with h1 h2
          exact absurd h2.symm hii
        · exact (hs o i).mp hm2
      · intro hx
        exact List.mem_cons_of_mem _ ((hs o i).mpr hx)

theorem idxConsistent_removeTok {E : Type} (id : String) (s s2 : Registry E)
    (h : removeTok id s = .ok s2) (hs : IdxConsistent s) : IdxConsistent s2 := by
  unfold removeTok at h
  cases hl : alookup s.tokens id with
  | none => rw [hl] at h; cases h
  | some old =>
    rw [hl] at h
    simp only [Except.ok.injEq] at h
    subst h
    intro o i
    show (o, i) ∈ eraseAll s.idx (token_owner_idx (strBytes id) old, id) ↔
      ∃ rr, alookup (eraseKey s.tokens id) i = some rr ∧ rr.owner = o
    rw [mem_eraseAll]
    simp only [token_owner_idx]
    by_cases hii : i = id
    · subst hii
      rw [alookup_eraseKey_self]
      constructor
      · rintro ⟨hm, hne⟩
        obtain ⟨rr, hrr, hro⟩ := (hs o i).mp hm
        rw [hl] at hrr
        injection hrr with hr
        subst hr
        exact absurd (by rw [← hro]) hne
      · rintro ⟨rr, hrr, hro⟩
        cases hrr
    · rw [alookup_eraseKey_ne s.tokens id i hii]
      constructor
      · rintro ⟨hm, hne⟩
        exact (hs o i).mp hm
      · intro hx
        refine ⟨(hs o i).mpr hx, fun he => ?_⟩
        injection he with h1 h2
        exact hii h2

theorem idxConsistent_updateOwnerTok {E : Type} (id : String) (nw : Addr)
    (s s2 : Registry E) (h : updateOwnerTok id nw s = .ok s2) (hs : IdxConsistent s) :
    IdxConsistent s2 := by
  unfold updateOwnerTok at h
  cases hl : alookup s.tokens id with
  | none => rw [hl] at h; cases h
  | some old =>
    rw [hl] at h
    simp only [Except.ok.injEq] at h
    subst h
    intro o i
    show (o, i) ∈ (token_owner_idx (strBytes id) { old with owner := nw }, id) ::
        eraseAll s.idx (token_owner_idx (strBytes id) old, id) ↔
      ∃ rr, alookup (setTok s.tokens id { old with owner := nw }) i = some rr ∧ rr.owner = o
    simp only [token_owner_idx]
    by_cases hii : i = id
    · subst hii
      rw [alookup_setTok_self s.tokens i { old with owner := nw } old hl]
      constructor
      · intro hm
        rcases List.mem_cons.mp hm with he | hm2
        · injection he with h1 h2
          exact ⟨{ old with owner := nw }, rfl, h1.symm⟩
        · obtain ⟨hm3, hne⟩ := (mem_eraseAll _ _ _).mp hm2
          obtain ⟨rr, hrr, hro⟩ := (hs o i).mp hm3
          rw [hl] at hrr
          injection hrr with hr
          subst hr
          exact absurd (by rw [← hro]) hne
      · rintro ⟨rr, hrr, hro⟩
        injection hrr with hr
        subst hr
        rw [← hro]
        exact List.mem_cons_self _ _
    · rw [alookup_setTok_ne s.tokens id i { old with owner := nw } hii]
      constructor
      · intro hm
        rcases List.mem_cons.mp hm with he | hm2
        · injection he with h1 h2
          exact absurd h2 hii
        · exact (hs o i).mp ((mem_eraseAll _ _ _).mp hm2).1
      · intro hx
        refine List.mem_cons_of_mem _ ((mem_eraseAll _ _ _).mpr ⟨(hs o i).mpr hx, fun he => ?_⟩)
        injection he with h1 h2
        exact hii h2


theorem idxConsistent_applyRegOp {E : Type} (op : RegOp E) (s : Registry E)
    (hs : IdxConsistent s) : IdxConsistent (applyRegOp op s) := by
  cases op with
  | insert id r =>
    simp only [applyRegOp, execRegOp]
    cases hex : insertTok id r s with
    | error e => exact hs
    | ok s2 => exact idxConsistent_insertTok id r s s2 hex hs
  | updateOwner id nw =>
    simp only [applyRegOp, execRegOp]
    cases hex : updateOwnerTok id nw s with
    | error e => exact hs
    | ok s2 => exact idxConsistent_updateOwnerTok id nw s s2 hex hs
  | remove id =>
    simp only [applyRegOp, execRegOp]
    cases hex : removeTok id s with
    | error e => exact hs
    | ok s2 => exact idxConsistent_removeTok id s s2 hex hs

theorem idxConsistent_runRegOps {E : Type} (ops : List (RegOp E)) (s : Registry E)
    (hs : IdxConsistent s) : IdxConsistent (runRegOps ops s) := by
  induction ops generalizing s with
  | nil => exact hs
  | cons op ops ih => exact ih _ (idxConsistent_applyRegOp op s hs)

theorem idxConsistent_empty (E : Type) : IdxConsistent (emptyRegistry E) := by
  intro o i
  simp [emptyRegistry]

/-- Claim C2: for every finite sequence of insert, updateOwner and remove
operations starting from the empty registry, at every observation point
(here: after running any such sequence, hence at every intermediate point
of a longer one) the set of (owner, id) owner-index entries is exactly the
set of pairs (record.owner, id) over the identifiers bound in the primary
token store. -/
theorem index_consistency_all_ops {E : Type} (ops : List (RegOp E)) :
    IdxConsistent (runRegOps ops (emptyRegistry E)) :=
  idxConsistent_runRegOps ops (emptyRegistry E) (idxConsistent_empty E)

theorem alookup_eq_none {κ α : Type} [DecidableEq κ] (l : List (κ × α)) (k : κ) :
    alookup l k = none ↔ k ∉ l.map Prod.fst := by
  induction l with
  | nil => simp
  | cons p t ih =>
    obtain ⟨a, b⟩ := p
    rw [alookup_cons]
    by_cases hak : a = k
    · simp [hak]
    · rw [if_neg hak, ih]
      simp only [List.map_cons, List.mem_cons]
      constructor
      · intro hnm hor
        rcases hor with h1 | h1
        · exact hak h1.symm
        · exact hnm h1
      · intro hn hm
        exact hn (Or.inr hm)

theorem eraseKey_of_not_mem {κ α : Type} [DecidableEq κ] (l : List (κ × α)) (k : κ)
    (h : k ∉ l.map Prod.fst) : eraseKey l k = l := by
  induction l with
  | nil => rfl
  | cons p t ih =>
    obtain ⟨a, b⟩ := p
    rw [List.map_cons, List.mem_cons] at h
    push_neg at h
    rw [eraseKey, if_neg (fun he => h.1 he.symm), ih h.2]

theorem length_eraseKey_of_lookup {κ α : Type} [DecidableEq κ] (l : List (κ × α)) (k : κ)
    (v : α) (hnd : (l.map Prod.fst).Nodup) (h : alookup l k = some v) :
    (eraseKey l k).length + 1 = l.length := by
  induction l with
  | nil => cases h
  | cons p t ih =>
    obtain ⟨a, b⟩ := p
    rw [List.map_cons, List.nodup_cons] at hnd
    obtain ⟨hna, hnd2⟩ := hnd
    by_cases hak : a = k
    · subst hak
      rw [eraseKey, if_pos rfl, eraseKey_of_not_mem t a hna, List.length_cons]
    · rw [eraseKey, if_neg hak, List.length_cons, List.length_cons]
      rw [alookup_cons, if_neg hak] at h
      have := ih hnd2 h
      omega

theorem map_fst_eraseKey_sublist {κ α : Type} [DecidableEq κ] (l : List (κ × α)) (k : κ) :
    ((eraseKey l k).map Prod.fst).Sublist (l.map Prod.fst) := by
  induction l with
  | nil => simp [eraseKey]
  | cons p t ih =>
    obtain ⟨a, b⟩ := p
    by_cases hak : a = k
    · rw [eraseKey, if_pos hak, List.map_cons]
      exact ih.cons _
    · rw [eraseKey, if_neg hak, List.map_cons, List.map_cons]
      exact ih.cons₂ _

theorem countWF_applyMintBurn {E : Type} (op : MintBurnOp E) (s : Registry E)
    (hs : CountWF s) : CountWF (applyMintBurn op s) := by
  obtain ⟨hnd, hc⟩ := hs
  cases op with
  | mint id r =>
    show CountWF (mintStep id r s)
    unfold mintStep
    cases hex : insertTok id r s with
    | error e => exact ⟨hnd, hc⟩
    | ok s2 =>
      unfold insertTok at hex
      cases hl : alookup s.tokens id with
      | some w => rw [hl] at hex; cases hex
      | none =>
        rw [hl] at hex
        simp only [Except.ok.injEq] at hex
        subst hex
        constructor
        · show ((((id, r) :: s.tokens)).map Prod.fst).Nodup
          rw [List.map_cons, List.nodup_cons]
          exact ⟨(alookup_eq_none _ _).mp hl, hnd⟩
        · show wrapInc s.count = ((id, r) :: s.tokens).length % U64MOD
          rw [hc]
          unfold wrapInc
          rw [List.length_cons, Nat.mod_add_mod]
  | burn id =>
    show CountWF (burnStep id s)
    unfold burnStep
    cases hex : removeTok id s with
    | error e => exact ⟨hnd, hc⟩
    | ok s2 =>
      unfold removeTok at hex
      cases hl : alookup s.tokens id with
      | none => rw [hl] at hex; cases hex
      | some old =>
        rw [hl] at hex
        simp only [Except.ok.injEq] at hex
        subst hex
        have hlen := length_eraseKey_of_lookup s.tokens id old hnd hl
        constructor
        · exact (map_fst_eraseKey_sublist s.tokens id).nodup hnd
        · show wrapDec s.count = (eraseKey s.tokens id).length % U64MOD
          rw [hc]
          unfold wrapDec
          rw [Nat.mod_add_mod]
          have hM : (0 : Nat) < U64MOD := by decide
          have h1 : s.tokens.length + (U64MOD - 1) =
              (eraseKey s.tokens id).length + U64MOD := by omega
          rw [h1, Nat.add_mod_right]

theorem countWF_runMintBurn {E : Type} (ops : List (MintBurnOp E)) (s : Registry E)
    (hs : CountWF s) : CountWF (runMintBurn ops s) := by
  induction ops generalizing s with
  | nil => exact hs
  | cons op ops ih => exact ih _ (countWF_applyMintBurn op s hs)

theorem length_applyMintBurn_le {E : Type} (op : MintBurnOp E) (s : Registry E) :
    (applyMintBurn op s).tokens.length ≤ s.tokens.length + 1 := by
  cases op with
  | mint id r =>
    show (mintStep id r s).tokens.length ≤ s.tokens.length + 1
    unfold mintStep
    cases hex : insertTok id r s with
    | error e => exact Nat.le_succ _
    | ok s2 =>
      unfold insertTok at hex
      cases hl : alookup s.tokens id with
      | some w => rw [hl] at hex; cases hex
      | none =>
        rw [hl] at hex
        simp only [Except.ok.injEq] at hex
        subst hex
        show ((id, r) :: s.tokens).length ≤ s.tokens.length + 1
        rw [List.length_cons]
  | burn id =>
    show (burnStep id s).tokens.length ≤ s.tokens.length + 1
    unfold burnStep
    cases hex : removeTok id s with
    | error e => exact Nat.le_succ _
    | ok s2 =>
      unfold removeTok at hex
      cases hl : alookup s.tokens id with
      | none => rw [hl] at hex; cases hex
      | some old =>
        rw [hl] at hex
        simp only [Except.ok.injEq] at hex
        subst hex
        have hsub := (map_fst_eraseKey_sublist s.tokens id).length_le
        simp only [List.length_map] at hsub
        show (eraseKey s.tokens id).length ≤ s.tokens.length + 1
        omega

theorem length_runMintBurn_le {E : Type} (ops : List (MintBurnOp E)) (s : Registry E) :
    (runMintBurn ops s).tokens.length ≤ s.tokens.length + ops.length := by
  induction ops generalizing s with
  | nil => simp [runMintBurn]
  | cons op ops ih =>
    show (runMintBurn ops (applyMintBurn op s)).tokens.length ≤
      s.tokens.length + (op :: ops).length
    have h1 := ih (applyMintBurn op s)
    have h2 := length_applyMintBurn_le op s
    rw [List.length_cons]
    omega

/-- Claim C3 (amended): for every sequence of fewer than 2 ^ 64 mint and
burn steps from the empty registry, where each mint pairs one insert with
exactly one counter increment and each burn pairs one remove with exactly
one counter decrement, after every step the counter equals the number of
live entries in the primary token store. (The bound is forced by the
unchecked u64 increment: at the 2 ^ 64-th live entry the counter wraps to
0 while the store keeps growing, see the counterexample.) -/
theorem counter_consistency_bounded {E : Type} (ops : List (MintBurnOp E))
    (h : ops.length < U64MOD) :
    (runMintBurn ops (emptyRegistry E)).count =
      (runMintBurn ops (emptyRegistry E)).tokens.length := by
  have hwf := countWF_runMintBurn ops (emptyRegistry E) (by exact ⟨List.nodup_nil, rfl⟩)
  obtain ⟨hnd, hc⟩ := hwf
  have hle : (runMintBurn ops (emptyRegistry E)).tokens.length ≤ 0 + ops.length :=
    length_runMintBurn_le ops (emptyRegistry E)
  rw [hc, Nat.mod_eq_of_lt (by omega)]

/-- Witness for claim C3 at a concrete three-step mint and burn sequence. -/
theorem counter_consistency_bounded_witness :
    (runMintBurn smallMintOps (emptyRegistry Unit)).count =
      (runMintBurn smallMintOps (emptyRegistry Unit)).tokens.length :=
  counter_consistency_bounded smallMintOps (by decide)

theorem mkId_injective (j k : Nat) (h : mkId j = mkId k) : j = k := by
  have h2 : List.replicate j 'a' = List.replicate k 'a' := congrArg String.data h
  have h3 := congrArg List.length h2
  simpa using h3

theorem runMintBurn_fresh_mints (ks : List Nat) (s : Registry Unit) (hnd : ks.Nodup)
    (hfresh : ∀ k, k ∈ ks → alookup s.tokens (mkId k) = none) (hcount : s.count < U64MOD) :
    (runMintBurn (ks.map (fun k => MintBurnOp.mint (mkId k) unitRecord)) s).count =
      (s.count + ks.length) % U64MOD ∧
    (runMintBurn (ks.map (fun k => MintBurnOp.mint (mkId k) unitRecord)) s).tokens.length =
      s.tokens.length + ks.length := by
  induction ks generalizing s with
  | nil =>
    constructor
    · exact (Nat.mod_eq_of_lt hcount).symm
    · rfl
  | cons k t ih =>
    rw [List.nodup_cons] at hnd
    obtain ⟨hkt, hnd2⟩ := hnd
    have hfk := hfresh k (List.mem_cons_self _ _)
    rw [List.map_cons]
    show (runMintBurn (t.map (fun k => MintBurnOp.mint (mkId k) unitRecord))
        (applyMintBurn (MintBurnOp.mint (mkId k) unitRecord) s)).count =
        (s.count + (k :: t).length) % U64MOD ∧
      (runMintBurn (t.map (fun k => MintBurnOp.mint (mkId k) unitRecord))
        (applyMintBurn (MintBurnOp.mint (mkId k) unitRecord) s)).tokens.length =
        s.tokens.length + (k :: t).length
    have happ : applyMintBurn (MintBurnOp.mint (mkId k) unitRecord) s =
        { s with
          tokens := (mkId k, unitRecord) :: s.tokens,
          idx := (token_owner_idx (strBytes (mkId k)) unitRecord, mkId k) :: s.idx,
          count := wrapInc s.count } := by
      show mintStep (mkId k) unitRecord s = _
      unfold mintStep insertTok
      rw [hfk]
    rw [happ]
    have hM : (0 : Nat) < U64MOD := by decide
    have hwlt : wrapInc s.count < U64MOD := Nat.mod_lt _ hM
    have hfresh2 : ∀ j, j ∈ t →
        alookup ((mkId k, unitRecord) :: s.tokens) (mkId j) = none := by
      intro j hj
      rw [alookup_cons, if_neg, hfresh j (List.mem_cons_of_mem _ hj)]
      intro he
      exact hkt (mkId_injective k j he ▸ hj)
    obtain ⟨ihc, ihl⟩ := ih { s with
        tokens := (mkId k, unitRecord) :: s.tokens,
        idx := (token_owner_idx (strBytes (mkId k)) unitRecord, mkId k) :: s.idx,
        count := wrapInc s.count } hnd2 hfresh2 hwlt
    constructor
    · rw [ihc]
      show (wrapInc s.count + t.length) % U64MOD = (s.count + (k :: t).length) % U64MOD
      unfold wrapInc
      rw [Nat.mod_add_mod, List.length_cons]
      have he : s.count + 1 + t.length = s.count + (t.length + 1) := by omega
      rw [he]
    · rw [ihl]
      show ((mkId k, unitRecord) :: s.tokens).length + t.length =
        s.tokens.length + (k :: t).length
      rw [List.length_cons, List.length_cons]
      omega

/-- Claim C3 counterexample: after exactly 2 ^ 64 mint steps of pairwise
distinct identifiers from the empty registry, the primary token store has
2 ^ 64 live entries while the unchecked u64 counter has wrapped back to 0,
so the counter differs from the number of live entries. -/
theorem counter_consistency_cex :
    (runMintBurn hugeMintOps (emptyRegistry Unit)).count ≠
      (runMintBurn hugeMintOps (emptyRegistry Unit)).tokens.length := by
  obtain ⟨hc, hl⟩ := runMintBurn_fresh_mints (List.range U64MOD) (emptyRegistry Unit)
    (List.nodup_range _) (fun k _ => rfl) (by decide)
  rw [List.length_range] at hc hl
  have hc0 : (emptyRegistry Unit).count = 0 := rfl
  have hl0 : (emptyRegistry Unit).tokens.length = 0 := rfl
  rw [hc0, Nat.zero_add, Nat.mod_self] at hc
  rw [hl0, Nat.zero_add] at hl
  unfold hugeMintOps
  rw [hc, hl]
  have hM : (0 : Nat) < U64MOD := by decide
  omega

theorem itemKey_ne_mapKey (s ns : String) (sfx : List Nat)
    (h : (strBytes s).head? ≠ some 0) : itemKey s ≠ mapKey ns sfx := by
  intro he
  apply h
  unfold itemKey at he
  rw [he]
  rfl

theorem mapKey_ne_mapKey (ns1 ns2 : String) (s1 s2 : List Nat)
    (h : (strBytes ns1).length ≠ (strBytes ns2).length) :
    mapKey ns1 s1 ≠ mapKey ns2 s2 := by
  intro he
  unfold mapKey at he
  injection he with h0 he2
  injection he2 with h1 he3
  exact h h1

/-- Claim C8: the default registry construction assigns each component its
fixed namespace (nft_info for the contract metadata, minter, num_tokens,
operators, tokens, tokens__owner), the six namespaces are pairwise
distinct, and flat storage keys written by distinct components never
collide: an Item key is its raw namespace bytes, which never begin with
the 0 length-prefix byte of a Map key, and Map keys of the three map
namespaces differ already in their length prefix. -/
theorem default_namespaces_distinct :
    ([cw721Default.contract_key, cw721Default.minter_key, cw721Default.token_count_key,
      cw721Default.operator_key, cw721Default.tokens_key,
      cw721Default.indexes.owner_idx_namespace] =
        ["nft_info", "minter", "num_tokens", "operators", "tokens", "tokens__owner"] ∧
      List.Nodup ["nft_info", "minter", "num_tokens", "operators", "tokens",
        "tokens__owner"]) ∧
    ∀ (c1 c2 : StorageComponent) (k1 k2 : List Nat), c1 ≠ c2 →
      isKeyOf cw721Default c1 k1 → isKeyOf cw721Default c2 k2 → k1 ≠ k2 := by
  refine ⟨⟨rfl, by decide⟩, ?_⟩
  intro c1 c2 k1 k2 hne h1 h2
  cases c1 <;> cases c2 <;>
    simp only [isKeyOf, cw721Default, Cw721Keys.new] at h1 h2 <;>
    first
      | exact absurd rfl hne
      | (subst h1; subst h2; decide)
      | (obtain ⟨s2, rfl⟩ := h2; subst h1; exact itemKey_ne_mapKey _ _ _ (by decide))
      | (obtain ⟨s1, rfl⟩ := h1; subst h2;
         exact fun he => itemKey_ne_mapKey _ _ _ (by decide) he.symm)
      | (obtain ⟨s1, rfl⟩ := h1; obtain ⟨s2, rfl⟩ := h2;
         exact mapKey_ne_mapKey _ _ _ _ (by decide))

/-- Witness for claim C8: the minter Item key differs from a concrete key of
the tokens map. -/
theorem default_namespaces_distinct_witness :
    itemKey "minter" ≠ mapKey "tokens" [7] :=
  default_namespaces_distinct.2 StorageComponent.minter StorageComponent.tokens
    (itemKey "minter") (mapKey "tokens" [7]) (by decide) rfl ⟨[7], rfl⟩

end Cw721
